import Mathlib

/- Verification development for the stackernews scraper (src/hackernews/hackernews.go,
   src/schema/hackernews.sql).  The comment-thread reconstruction scan, the
   closure-table writes, and the front-page assembly are embedded shallowly:
   DOM selections are modelled as already-extracted row records (the goquery
   Row Extractor is an external collaborator), and the relational store as
   in-memory lists with serial id assignment starting at 1 (Postgres SERIAL).
   Go machine integers are modelled as Int with the explicit int64 clamps that
   strconv performs. -/

set_option maxRecDepth 10000

/-- Largest value of a Go int64, the clamp bound used by strconv.Atoi. -/
def intMax : Int := 9223372036854775807

/-- Smallest value of a Go int64. -/
def intMin : Int := -9223372036854775808

/-- Numeric value of a list of decimal digit characters, most significant first. -/
def digitsVal (l : List Char) : Int :=
  l.foldl (fun a ch => a * 10 + ((ch.toNat : Int) - 48)) 0

/-- Behaviour of strconv.Atoi (stdlib, not in src/) on an unsigned decimal body:
    empty or non-digit input is a syntax error (0, false); a value above int64
    range is clamped to MaxInt64 with a range error.  The Bool is "no error". -/
def atoiDigits (ds : List Char) : Int × Bool :=
  if ds.isEmpty then (0, false)
  else if ¬ ds.all Char.isDigit then (0, false)
  else if digitsVal ds ≤ intMax then (digitsVal ds, true)
  else (intMax, false)

/-- Model of strconv.Atoi (stdlib, not in src/) on the character list of the
    input: optional sign, decimal digits, int64 range clamping.  Returns
    (value, ok); Go returns (0, err) on syntax errors and (clamped, err) on
    range errors. -/
def go_atoi_list : List Char → Int × Bool
  | [] => (0, false)
  | c :: ds =>
    if c = '-' then
      (if ds.isEmpty then (0, false)
       else if ¬ ds.all Char.isDigit then (0, false)
       else if digitsVal ds ≤ -intMin then (-(digitsVal ds), true)
       else (intMin, false))
    else if c = '+' then atoiDigits ds
    else atoiDigits (c :: ds)

/-- Model of strconv.Atoi (stdlib, not in src/). -/
def go_atoi (s : String) : Int × Bool := go_atoi_list s.toList

/-- Leftmost maximal run of decimal digits of a character list; models what the
    regular expression [0-9]+ (number_re) matches first in a string. -/
def findDigitRun : List Char → List Char
  | [] => []
  | ch :: rest => if ch.isDigit then ch :: rest.takeWhile Char.isDigit else findDigitRun rest

/-- Model of number_re.FindString: the leftmost match of [0-9]+, or "" when the
    string contains no digit. -/
def number_re_find (s : String) : String := String.mk (findDigitRun s.toList)

/-- parseIntFromSelectionText from hackernews.go: number_re.FindString on the
    selection's text, then strconv.Atoi, returning 0 on any Atoi error. -/
def parseIntFromSelectionText (text : String) : Int :=
  let r := go_atoi (number_re_find text)
  if r.2 then r.1 else 0

/-- The claim's reading of the extraction: value of the LEADING run of digits
    (a digit prefix of the text), 0 when the text does not start with a digit.
    Stated from the claim's words, for comparison with the source function. -/
def leadingDigitRunValue (s : String) : Int :=
  let run := s.toList.takeWhile Char.isDigit
  if run.isEmpty then 0 else digitsVal run

/-- Amended reading: value of the leftmost maximal run of digits ANYWHERE in
    the text, 0 when there is no digit or the run overflows int64. -/
def firstDigitRunValue (s : String) : Int :=
  let run := (s.toList.dropWhile (fun ch => !ch.isDigit)).takeWhile Char.isDigit
  if run.isEmpty then 0 else if digitsVal run ≤ intMax then digitsVal run else 0

/-- An anchor element as the scraper sees it: its text and its href attribute
    (goquery's Attr returns "" when the attribute is absent). -/
structure Link where
  text : String
  href : String
deriving DecidableEq, Repr

/-- One raw comment row handed to CommentPage.parse.  The DOM accessors of the
    source are modelled as pre-extracted fields: indWidth is the width
    attribute of the td.ind img ("" when missing); headLinks are the anchors of
    span.comhead in document order; fontColor is the color attribute of the
    body font tag ("" when missing); bodyHtml is the body markup after the
    source's s.Find(".reply").Remove() has run (reply chrome stripped by the
    external DOM layer). -/
structure CommentRow where
  indWidth : String
  headLinks : List Link
  fontColor : String
  bodyHtml : String
deriving DecidableEq, Repr

/-- The Comment struct of hackernews.go.  All fields start at their Go zero
    values.  ID is first assigned the site id by parseCommentHead and then
    OVERWRITTEN with the store serial by Comment.store (as in the source);
    CommentID is never assigned anywhere in the source. -/
structure Comment where
  ID : Int := 0
  Username : String := ""
  CommentID : Int := 0
  Color : String := ""
  Content : String := ""
  ArticleID : Int := 0
  offset : Int := 0
deriving DecidableEq, Repr

/-- A row of the hackernews.comments table (schema hackernews.sql):
    comments(id, comment_id, username, color, content, article_id). -/
structure StoredComment where
  id : Int
  comment_id : Int
  username : String
  color : String
  content : String
  article_id : Int
deriving DecidableEq, Repr

/-- A row of the hackernews.threads closure table:
    threads(ancestor, descendant, depth).  The SERIAL id column is omitted:
    it is never read back by the source. -/
structure ThreadEdge where
  ancestor : Int
  descendant : Int
  depth : Int
deriving DecidableEq, Repr

/-- The relational store as seen by one article's comment scan: the comments
    and threads tables in insertion order, plus the next comments serial.
    Serials start at 1; every insert succeeds here (Comment.store calls
    log.Fatal on error, so a completed scan had only successful inserts; the
    failing-insert behaviour is modelled separately below). -/
structure DB where
  comments : List StoredComment
  threads : List ThreadEdge
  nextCommentId : Int
deriving DecidableEq, Repr

/-- The empty store at the start of one article's scan. -/
def DB.empty : DB := ⟨[], [], 1⟩

/-- Result of Comment.parseCommentHead: ok, a returned error (wrong link count
    or Atoi failure — the caller in CommentPage.parse discards it), or a Go
    runtime panic (strings.Split(_id, "=")[1] indexes out of range when the
    href contains no "="), which kills the process. -/
inductive HeadRes where
  | ok
  | err
  | crash
deriving DecidableEq, Repr

/-- parseIndent from hackernews.go: offset := Atoi(width attr of td.ind img),
    error discarded (so the clamped/zero Atoi value is kept). -/
def Comment.parseIndent (c : Comment) (row : CommentRow) : Comment :=
  { c with offset := (go_atoi row.indWidth).1 }

/-- Model of strings.Split (stdlib, not in src/) for a single-character
    separator: splits at every occurrence, keeping empty segments, so the
    result is always nonempty. -/
def splitChar (sep : Char) : List Char → List (List Char)
  | [] => [[]]
  | c :: rest =>
    if c = sep then [] :: splitChar sep rest
    else
      match splitChar sep rest with
      | [] => [[c]]
      | h :: t => (c :: h) :: t

/-- parseCommentHead from hackernews.go.  Requires exactly two links in the
    head region; sets Username from the first link, then parses the site id
    from the second link's href (goquery's links.Next() resolves to the second
    anchor for HN's adjacent comhead anchors), taking strings.Split(href,
    "=")[1] — a runtime panic when the href holds no "=" — and assigning its
    Atoi value to ID.  Mutations already performed are kept when an error is
    returned, exactly as in Go. -/
def Comment.parseCommentHead (c : Comment) (links : List Link) : Comment × HeadRes :=
  if links.length ≠ 2 then (c, .err)
  else
    let c₁ := { c with Username := ((links.head?).map Link.text).getD "" }
    let idHref := ((links[1]?).map Link.href).getD ""
    match ((splitChar '=' idHref.toList).map String.mk)[1]? with
    | none => (c₁, .crash)
    | some idStr =>
      let r := go_atoi idStr
      if r.2 then ({ c₁ with ID := r.1 }, .ok) else (c₁, .err)

/-- parseCommentBody from hackernews.go: color from the font tag, content from
    the body html (the .reply removal happened in the DOM layer). -/
def Comment.parseCommentBody (c : Comment) (row : CommentRow) : Comment :=
  { c with Color := row.fontColor, Content := row.bodyHtml }

/-- Comment.store from hackernews.go: INSERT the comment row (note: the
    comment_id column receives c.CommentID), assign the returned serial to
    c.ID, then INSERT the self thread edge (id, id, 0). -/
def Comment.store (c : Comment) (db : DB) : Comment × DB :=
  ({ c with ID := db.nextCommentId },
   { comments := db.comments ++
       [⟨db.nextCommentId, c.CommentID, c.Username, c.Color, c.Content, c.ArticleID⟩],
     threads := db.threads ++ [⟨db.nextCommentId, db.nextCommentId, 0⟩],
     nextCommentId := db.nextCommentId + 1 })

/-- Comment.addReply from hackernews.go: for every threads row with
    descendant = parent id, INSERT (ancestor, child id, depth + 1). -/
def Comment.addReply (c : Comment) (child : Comment) (db : DB) : DB :=
  let batch : List ThreadEdge :=
    (db.threads.filter (fun e => e.descendant = c.ID)).map
      (fun e => ⟨e.ancestor, child.ID, e.depth + 1⟩)
  { db with threads := db.threads ++ batch }

/-- The CommentPage struct of hackernews.go.  The Go slice cp.thread is kept
    root-first and truncated by index; here the same stack is kept TOP-FIRST
    (head = most recent comment), so the source's truncation loop — pop while
    the top's offset is >= the new offset — is dropWhile at the head, and the
    source's cp.thread[cp.depth-2] (the new comment's parent) is the head of
    the popped stack. -/
structure CommentPage where
  Comments : List Comment := []
  thread : List Comment := []
  depth : Nat := 0
deriving DecidableEq, Repr

/-- Body of the comments.Each closure in CommentPage.parse, for one comment
    row: build the Comment, parse indent/head/body (the head error is
    DISCARDED, as in the source), store it (serial id + self edge), pop the
    stack, link to the new top if any, push.  Returns none when the head parse
    panics (process death). -/
def CommentPage.parseRow (aID : Int) (cp : CommentPage) (db : DB) (row : CommentRow) :
    Option (CommentPage × DB) :=
  let c0 : Comment := { ArticleID := aID }
  let c1 := c0.parseIndent row
  let pr := c1.parseCommentHead row.headLinks
  match pr.2 with
  | HeadRes.crash => none
  | _ =>
    let c3 := pr.1.parseCommentBody row
    let sd := c3.store db
    let c4 := sd.1
    let popped := cp.thread.dropWhile (fun p => c4.offset ≤ p.offset)
    let thread' := c4 :: popped
    let db₂ := match popped with
      | [] => sd.2
      | parent :: _ => parent.addReply c4 sd.2
    some ({ Comments := cp.Comments ++ [c4], thread := thread', depth := thread'.length }, db₂)

/-- CommentPage.parse folded over the remaining rows from a given state. -/
def CommentPage.parseList (aID : Int) : List CommentRow → CommentPage → DB →
    Option (CommentPage × DB)
  | [], cp, db => some (cp, db)
  | r :: rs, cp, db =>
    match CommentPage.parseRow aID cp db r with
    | none => none
    | some (cp', db') => CommentPage.parseList aID rs cp' db'

/-- CommentPage.parse from hackernews.go for one article: scan the ordered
    comment rows from a fresh CommentPage and an empty per-article store view.
    none means the process died (head-parse panic) before finishing. -/
def CommentPage.parse (aID : Int) (rows : List CommentRow) : Option (CommentPage × DB) :=
  CommentPage.parseList aID rows {} DB.empty

/-- Offsets of a row sequence as the scan would parse them. -/
def rowOffsets (rows : List CommentRow) : List Int :=
  rows.map (fun r => (go_atoi r.indWidth).1)

/-- The Article struct of hackernews.go, fields at Go zero values. -/
structure Article where
  ID : Int := 0
  SnapshotID : Int := 0
  Rank : Int := 0
  Link : String := ""
  Title : String := ""
  Score : Int := 0
  Username : String := ""
  CommentCount : Int := 0
  CommentsLink : String := ""
deriving DecidableEq, Repr

/-- The td.subtext cell of a front-page row, when the selection is nonempty:
    the text of span.score ("" when missing) and the anchors in order. -/
structure SubtextCell where
  scoreText : String
  links : List Link
deriving DecidableEq, Repr

/-- One tr of the front-page main table as FrontPage.parse classifies it:
    its class attribute ("" when absent), the title-row selections (rank label
    text, title anchor href and text, all "" when the selections are empty),
    and the subtext cell (none when s.Find("td.subtext") is empty). -/
structure PageRow where
  cls : String
  rankText : String
  titleHref : String
  titleText : String
  subtext : Option SubtextCell
deriving DecidableEq, Repr

/-- parseTitleRow from hackernews.go. -/
def Article.parseTitleRow (a : Article) (row : PageRow) : Article :=
  { a with Rank := parseIntFromSelectionText row.rankText,
           Link := row.titleHref, Title := row.titleText }

/-- parseSubtextRow from hackernews.go: false when the td.subtext selection is
    empty; otherwise score from span.score, username from the first anchor's
    text, comments link and comment count from the last anchor (goquery's
    First/Last on an empty anchor selection yield ""/absent, hence the
    defaults). -/
def Article.parseSubtextRow (a : Article) (sub : Option SubtextCell) : Article × Bool :=
  match sub with
  | none => (a, false)
  | some cell =>
    ({ a with Score := parseIntFromSelectionText cell.scoreText,
              Username := ((cell.links.head?).map Link.text).getD "",
              CommentsLink := ((cell.links.getLast?).map Link.href).getD "",
              CommentCount := parseIntFromSelectionText
                (((cell.links.getLast?).map Link.text).getD "") }, true)

/-- State of FrontPage.parse: the appended f.Articles sequence, the articles
    persisted by Article.store so far (with their serials), the current
    accumulator article, and the articles serial.  In Go, f.Articles holds
    pointers, so the entry appended at a subtext row later receives the store
    serial assigned at the spacer row; here Articles keeps the value appended
    at the subtext row.  No claim below depends on the ID field of an
    appended entry, only the stored list carries serials. -/
structure FPState where
  Articles : List Article
  stored : List Article
  cur : Article
  nextArticleId : Int
deriving DecidableEq, Repr

/-- One iteration of the switch in FrontPage.parse: a "spacer" row persists the
    current accumulator (Article.store, which assigns the serial) and resets
    it; an "athing" row parses the title data into the accumulator; a row with
    no class is treated as the subtext row and, when td.subtext is present,
    the accumulator is appended to f.Articles; other classes are ignored. -/
def FrontPage.parseRow (snapId : Int) (st : FPState) (row : PageRow) : FPState :=
  if row.cls = "spacer" then
    { Articles := st.Articles,
      stored := st.stored ++ [{ st.cur with ID := st.nextArticleId }],
      cur := { SnapshotID := snapId },
      nextArticleId := st.nextArticleId + 1 }
  else if row.cls = "athing" then
    { st with cur := st.cur.parseTitleRow row }
  else if row.cls = "" then
    let pr := st.cur.parseSubtextRow row.subtext
    if pr.2 then { st with cur := pr.1, Articles := st.Articles ++ [pr.1] }
    else { st with cur := pr.1 }
  else st

/-- FrontPage.parse from hackernews.go over the classified rows of one fetch,
    starting from a fresh accumulator (f.next()) and articles serial 1. -/
def FrontPage.parse (snapId : Int) (rows : List PageRow) : FPState :=
  rows.foldl (FrontPage.parseRow snapId)
    ⟨[], [], { SnapshotID := snapId }, 1⟩

/-- Outcome of a comment scan against a store whose inserts can fail: done
    (all rows processed), fatal (an insert's Scan returned an error, the
    source calls log.Fatal and the process exits), or crashed (head-parse
    panic).  calls counts the QueryRow round-trips performed. -/
inductive RunOut where
  | done (cp : CommentPage) (db : DB) (calls : Nat)
  | fatal (cp : CommentPage) (db : DB) (calls : Nat)
  | crashed (cp : CommentPage) (db : DB) (calls : Nat)
deriving DecidableEq, Repr

/-- True exactly for the fatal outcome (log.Fatal: process termination). -/
def RunOut.isFatal : RunOut → Bool
  | .fatal _ _ _ => true
  | _ => false

/-- CommentPage.parse against a store whose failAt-th QueryRow insert (0-based
    across the scan: comment row, self edge, reply batch, in source order)
    fails.  A failing insert persists nothing and the source's log.Fatal ends
    the scan — and the process — immediately; the state reached so far is
    carried in the outcome.  With failAt beyond the call count this is exactly
    the scan embedded by CommentPage.parseList. -/
def CommentPage.parseListF (aID : Int) (failAt : Nat) :
    List CommentRow → CommentPage → DB → Nat → RunOut
  | [], cp, db, calls => .done cp db calls
  | r :: rs, cp, db, calls =>
    let c0 : Comment := { ArticleID := aID }
    let c1 := c0.parseIndent r
    let pr := c1.parseCommentHead r.headLinks
    match pr.2 with
    | HeadRes.crash => .crashed cp db calls
    | _ =>
      let c3 := pr.1.parseCommentBody r
      if calls = failAt then .fatal cp db calls
      else
        let newRow : StoredComment :=
          ⟨db.nextCommentId, c3.CommentID, c3.Username, c3.Color, c3.Content, c3.ArticleID⟩
        let db₁ : DB := { comments := db.comments ++ [newRow],
                          threads := db.threads, nextCommentId := db.nextCommentId + 1 }
        let c4 := { c3 with ID := db.nextCommentId }
        if calls + 1 = failAt then .fatal cp db₁ (calls + 1)
        else
          let db₂ : DB := { db₁ with threads := db₁.threads ++ [⟨c4.ID, c4.ID, 0⟩] }
          let popped := cp.thread.dropWhile (fun p => c4.offset ≤ p.offset)
          let cp' : CommentPage :=
            { Comments := cp.Comments, thread := c4 :: popped, depth := (c4 :: popped).length }
          match popped with
          | [] =>
            CommentPage.parseListF aID failAt rs
              { cp' with Comments := cp.Comments ++ [c4] } db₂ (calls + 2)
          | parent :: _ =>
            if calls + 2 = failAt then .fatal cp' db₂ (calls + 2)
            else
              CommentPage.parseListF aID failAt rs
                { cp' with Comments := cp.Comments ++ [c4] }
                (parent.addReply c4 db₂) (calls + 3)

/-- Whole-scan entry point for the failing-store run. -/
def CommentPage.parseF (aID : Int) (failAt : Nat) (rows : List CommentRow) : RunOut :=
  CommentPage.parseListF aID failAt rows {} DB.empty 0

/-- Closure block of one comment: chainEdges i [a₀, a₁, …] d lists the edges
    (a₀, i, d), (a₁, i, d+1), … — the ancestor chain of comment i written as
    threads rows, starting at depth d. -/
def chainEdges (i : Int) : List Int → Int → List ThreadEdge
  | [], _ => []
  | a :: rest, d => ⟨a, i, d⟩ :: chainEdges i rest (d + 1)

/-- Concatenation of the per-comment closure blocks, in insertion order. -/
def blocksOf : List (Int × List Int) → List ThreadEdge
  | [] => []
  | p :: rest => chainEdges p.1 p.2 0 ++ blocksOf rest

/-- The serial ids 1, …, n in order. -/
def idRange : Nat → List Int
  | 0 => []
  | n + 1 => idRange n ++ [(n : Int) + 1]

theorem mem_idRange {x : Int} : ∀ {n : Nat}, x ∈ idRange n ↔ 1 ≤ x ∧ x ≤ (n : Int) := by
  intro n
  induction n with
  | zero =>
    simp only [idRange, List.not_mem_nil, false_iff, Nat.cast_zero]
    omega
  | succ m ih =>
    simp only [idRange, List.mem_append, List.mem_singleton, ih]
    push_cast
    omega

theorem idRange_nodup (n : Nat) : (idRange n).Nodup := by
  induction n with
  | zero => simp [idRange]
  | succ m ih =>
    simp only [idRange, List.nodup_append, List.nodup_singleton, true_and]
    refine ⟨ih, ?_⟩
    intro x hx
    simp only [List.mem_singleton]
    have := mem_idRange.mp hx
    intro hcontra
    omega

theorem idRange_head (n : Nat) (h : n ≠ 0) : (idRange n).head? = some 1 := by
  induction n with
  | zero => omega
  | succ m ih =>
    by_cases hm : m = 0
    · subst hm
      simp [idRange]
    · have := ih hm
      simp only [idRange, List.head?_append]
      rw [this]
      rfl

theorem chainEdges_descendant {i : Int} :
    ∀ {ch : List Int} {d : Int}, ∀ e ∈ chainEdges i ch d, e.descendant = i := by
  intro ch
  induction ch with
  | nil => intro d e he; simp [chainEdges] at he
  | cons a rest ih =>
    intro d e he
    simp only [chainEdges, List.mem_cons] at he
    rcases he with rfl | he
    · rfl
    · exact ih e he

theorem chainEdges_depth_lb {i : Int} :
    ∀ {ch : List Int} {d : Int}, ∀ e ∈ chainEdges i ch d, d ≤ e.depth := by
  intro ch
  induction ch with
  | nil => intro d e he; simp [chainEdges] at he
  | cons a rest ih =>
    intro d e he
    simp only [chainEdges, List.mem_cons] at he
    rcases he with rfl | he
    · simp
    · have := ih e he; omega

theorem mem_chainEdges {i : Int} {e : ThreadEdge} :
    ∀ {ch : List Int} {d : Int},
      e ∈ chainEdges i ch d ↔ ∃ j : Nat, ch[j]? = some e.ancestor ∧
        e.descendant = i ∧ e.depth = d + (j : Int) := by
  intro ch
  induction ch with
  | nil => intro d; simp [chainEdges]
  | cons a rest ih =>
    intro d
    simp only [chainEdges, List.mem_cons, ih]
    constructor
    · rintro (rfl | ⟨j, hj, hd, hk⟩)
      · exact ⟨0, by simp, rfl, by simp⟩
      · exact ⟨j + 1, by simpa using hj, hd, by push_cast; omega⟩
    · rintro ⟨j, hj, hd, hk⟩
      cases j with
      | zero =>
        left
        simp only [List.getElem?_cons_zero, Option.some.injEq] at hj
        cases e
        simp_all
      | succ j =>
        right
        exact ⟨j, by simpa using hj, hd, by push_cast at hk ⊢; omega⟩

theorem count_chainEdges_zero {i : Int} {e : ThreadEdge} (h : e.descendant ≠ i)
    (ch : List Int) (d : Int) : (chainEdges i ch d).count e = 0 := by
  refine List.count_eq_zero.mpr ?_
  intro hm
  exact h (chainEdges_descendant e hm)

theorem count_chainEdges_get {i a : Int} :
    ∀ {ch : List Int} {j : Nat} {d : Int}, ch[j]? = some a →
      (chainEdges i ch d).count ⟨a, i, d + (j : Int)⟩ = 1 := by
  intro ch
  induction ch with
  | nil => intro j d h; simp at h
  | cons b rest ih =>
    intro j d h
    cases j with
    | zero =>
      simp only [List.getElem?_cons_zero, Option.some.injEq] at h
      subst h
      have hz : (chainEdges i rest (d + 1)).count ⟨b, i, d + ((0 : Nat) : Int)⟩ = 0 := by
        refine List.count_eq_zero.mpr ?_
        intro hm
        have hlb : d + 1 ≤ d + ((0 : Nat) : Int) := chainEdges_depth_lb _ hm
        omega
      simp only [chainEdges, List.count_cons, hz]
      simp
    | succ j =>
      simp only [List.getElem?_cons_succ] at h
      have hrec := ih (j := j) (d := d + 1) h
      have heq : (⟨a, i, d + ((j + 1 : Nat) : Int)⟩ : ThreadEdge) =
          ⟨a, i, (d + 1) + (j : Int)⟩ := by
        congr 1
        push_cast
        omega
      have hne : ¬ ((⟨b, i, d⟩ : ThreadEdge) = ⟨a, i, (d + 1) + (j : Int)⟩) := by
        intro hcontra
        have hd := congrArg ThreadEdge.depth hcontra
        simp only at hd
        omega
      simp only [chainEdges, List.count_cons, beq_iff_eq]
      rw [heq, hrec, if_neg hne]

theorem blocksOf_append (l₁ l₂ : List (Int × List Int)) :
    blocksOf (l₁ ++ l₂) = blocksOf l₁ ++ blocksOf l₂ := by
  induction l₁ with
  | nil => rfl
  | cons p rest ih => simp [blocksOf, ih]

theorem mem_blocksOf {e : ThreadEdge} :
    ∀ {chains : List (Int × List Int)},
      e ∈ blocksOf chains ↔ ∃ p ∈ chains, e ∈ chainEdges p.1 p.2 0 := by
  intro chains
  induction chains with
  | nil => simp [blocksOf]
  | cons p rest ih => simp [blocksOf, ih, List.mem_append]

theorem count_blocksOf_zero {e : ThreadEdge} :
    ∀ {chains : List (Int × List Int)}, (∀ p ∈ chains, p.1 ≠ e.descendant) →
      (blocksOf chains).count e = 0 := by
  intro chains
  induction chains with
  | nil => intro _; rfl
  | cons p rest ih =>
    intro h
    simp only [blocksOf, List.count_append]
    rw [count_chainEdges_zero (fun hc => h p (List.mem_cons_self p rest) hc.symm)]
    rw [ih (fun q hq => h q (List.mem_cons_of_mem p hq))]

theorem count_blocksOf {e : ThreadEdge} {i : Int} {ch : List Int} :
    ∀ {chains : List (Int × List Int)}, (chains.map Prod.fst).Nodup →
      (i, ch) ∈ chains → e.descendant = i →
      (blocksOf chains).count e = (chainEdges i ch 0).count e := by
  intro chains
  induction chains with
  | nil => intro _ hm; simp at hm
  | cons p rest ih =>
    intro hnd hm hd
    simp only [List.map_cons, List.nodup_cons] at hnd
    simp only [blocksOf, List.count_append]
    rcases List.mem_cons.mp hm with rfl | hm'
    · have hz : (blocksOf rest).count e = 0 := by
        refine count_blocksOf_zero ?_
        intro q hq hq1
        have h2 : q.1 ∈ rest.map Prod.fst := List.mem_map_of_mem Prod.fst hq
        rw [hq1, hd] at h2
        exact hnd.1 h2
      simp [hz]
    · have hp1 : p.1 ≠ i := by
        intro hc
        refine hnd.1 ?_
        rw [hc]
        simpa using List.mem_map_of_mem Prod.fst hm'
      rw [count_chainEdges_zero (by rw [hd]; exact fun hc => hp1 hc.symm)]
      rw [ih hnd.2 hm' hd]
      omega

theorem filter_chainEdges_self (i : Int) (ch : List Int) (d : Int) :
    (chainEdges i ch d).filter (fun e => e.descendant = i) = chainEdges i ch d := by
  refine List.filter_eq_self.mpr ?_
  intro e he
  simpa using chainEdges_descendant e he

theorem filter_chainEdges_other {i j : Int} (h : j ≠ i) (ch : List Int) (d : Int) :
    (chainEdges j ch d).filter (fun e => e.descendant = i) = [] := by
  refine List.filter_eq_nil_iff.mpr ?_
  intro e he
  have := chainEdges_descendant e he
  simp [this, h]

theorem filter_blocksOf {i : Int} {ch : List Int} :
    ∀ {chains : List (Int × List Int)}, (chains.map Prod.fst).Nodup →
      (i, ch) ∈ chains →
      (blocksOf chains).filter (fun e => e.descendant = i) = chainEdges i ch 0 := by
  intro chains
  induction chains with
  | nil => intro _ hm; simp at hm
  | cons p rest ih =>
    intro hnd hm
    simp only [List.map_cons, List.nodup_cons] at hnd
    simp only [blocksOf, List.filter_append]
    rcases List.mem_cons.mp hm with rfl | hm'
    · rw [filter_chainEdges_self]
      have hz : (blocksOf rest).filter (fun e => e.descendant = i) = [] := by
        refine List.filter_eq_nil_iff.mpr ?_
        intro e he hc
        simp only [decide_eq_true_eq] at hc
        obtain ⟨q, hq, hqe⟩ := mem_blocksOf.mp he
        have hdq := chainEdges_descendant e hqe
        have h2 : q.1 ∈ rest.map Prod.fst := List.mem_map_of_mem Prod.fst hq
        rw [hdq] at hc
        rw [hc] at h2
        exact hnd.1 h2
      rw [hz]
      simp
    · have hp1 : p.1 ≠ i := by
        intro hc
        refine hnd.1 ?_
        rw [hc]
        simpa using List.mem_map_of_mem Prod.fst hm'
      rw [filter_chainEdges_other hp1]
      rw [ih hnd.2 hm']
      simp

theorem chainEdges_map_shift (p i : Int) :
    ∀ (ch : List Int) (d : Int),
      (chainEdges p ch d).map (fun e => (⟨e.ancestor, i, e.depth + 1⟩ : ThreadEdge)) =
        chainEdges i ch (d + 1) := by
  intro ch
  induction ch with
  | nil => intro d; rfl
  | cons a rest ih => intro d; simp [chainEdges, ih]

theorem dropWhile_head_false {α : Type _} (p : α → Bool) :
    ∀ (l : List α) {b : α}, (l.dropWhile p).head? = some b → p b = false := by
  intro l
  induction l with
  | nil => intro b h; simp [List.dropWhile] at h
  | cons a rest ih =>
    intro b h
    by_cases hpa : p a = true
    · rw [List.dropWhile_cons, if_pos hpa] at h
      exact ih h
    · rw [List.dropWhile_cons, if_neg hpa] at h
      simp only [List.head?_cons, Option.some.injEq] at h
      subst h
      simpa using hpa

theorem dropWhile_suffix_of {α : Type _} (p : α → Bool) (l : List α) :
    l.dropWhile p <:+ l :=
  ⟨l.takeWhile p, List.takeWhile_append_dropWhile p l⟩

theorem mem_of_mem_dropWhile {α : Type _} {p : α → Bool} {l : List α} {a : α}
    (h : a ∈ l.dropWhile p) : a ∈ l :=
  (dropWhile_suffix_of p l).subset h

theorem parseCommentHead_fst_offset (c : Comment) (links : List Link) :
    ((c.parseCommentHead links).1).offset = c.offset := by
  unfold Comment.parseCommentHead
  split
  · rfl
  · dsimp only
    split
    · rfl
    · split <;> rfl

theorem parseRow_some {aID : Int} {cp : CommentPage} {db : DB} {row : CommentRow}
    {cp' : CommentPage} {db' : DB}
    (h : CommentPage.parseRow aID cp db row = some (cp', db')) :
    ∃ c4 : Comment, ∃ sc : StoredComment,
      c4.ID = db.nextCommentId ∧
      c4.offset = (go_atoi row.indWidth).1 ∧
      sc.id = db.nextCommentId ∧
      cp'.Comments = cp.Comments ++ [c4] ∧
      cp'.thread = c4 :: cp.thread.dropWhile (fun p => c4.offset ≤ p.offset) ∧
      cp'.depth = cp'.thread.length ∧
      db'.comments = db.comments ++ [sc] ∧
      db'.nextCommentId = db.nextCommentId + 1 ∧
      ((cp.thread.dropWhile (fun p => c4.offset ≤ p.offset) = [] ∧
          db'.threads = db.threads ++ [⟨db.nextCommentId, db.nextCommentId, 0⟩]) ∨
        (∃ parent rest,
          cp.thread.dropWhile (fun p => c4.offset ≤ p.offset) = parent :: rest ∧
          db'.threads = (db.threads ++ [⟨db.nextCommentId, db.nextCommentId, 0⟩]) ++
            ((db.threads ++ [(⟨db.nextCommentId, db.nextCommentId, 0⟩ : ThreadEdge)]).filter
                (fun e => e.descendant = parent.ID)).map
              (fun e => (⟨e.ancestor, db.nextCommentId, e.depth + 1⟩ : ThreadEdge)))) := by
  unfold CommentPage.parseRow at h
  dsimp only at h
  split at h
  · exact absurd h (by simp)
  · split at h
    · rw [Option.some.injEq, Prod.mk.injEq] at h
      obtain ⟨hcp, hdb⟩ := h
      subst hcp hdb
      refine ⟨_, _, rfl, ?_, rfl, rfl, ?_, rfl, rfl, rfl, Or.inl ⟨by assumption, rfl⟩⟩
      · simp only [Comment.store, Comment.parseCommentBody, parseCommentHead_fst_offset,
          Comment.parseIndent]
      · rfl
    · rw [Option.some.injEq, Prod.mk.injEq] at h
      obtain ⟨hcp, hdb⟩ := h
      subst hcp hdb
      refine ⟨_, _, rfl, ?_, rfl, rfl, ?_, rfl, rfl, rfl,
        Or.inr ⟨_, _, by assumption, ?_⟩⟩
      · simp only [Comment.store, Comment.parseCommentBody, parseCommentHead_fst_offset,
          Comment.parseIndent]
      · rfl
      · simp only [Comment.addReply, Comment.store]

/-- Reachability invariant of the comment scan.  The chains witness records,
    for each stored comment in insertion order, its serial id together with
    its full ancestor chain (itself first, root last); the threads table is
    exactly the concatenation of the closure blocks of those chains.  The
    stack carries only stored comments, its offsets strictly decrease from
    the top (= the head here), the depth counter is its length, and its top
    is the most recently retained comment. -/
def ScanInv (cp : CommentPage) (db : DB) : Prop :=
  ∃ chains : List (Int × List Int),
    chains.map Prod.fst = idRange db.comments.length ∧
    db.comments.map StoredComment.id = idRange db.comments.length ∧
    db.nextCommentId = (db.comments.length : Int) + 1 ∧
    db.threads = blocksOf chains ∧
    (∀ p ∈ chains, p.2.head? = some p.1 ∧ List.Chain' (fun a b => b < a) p.2 ∧
      (∀ a ∈ p.2, 1 ≤ a ∧ a ≤ (db.comments.length : Int)) ∧
      (p.2.tail = [] ∨ p.2.tail ∈ chains.map Prod.snd)) ∧
    (∀ c ∈ cp.thread, ∃ ch, (c.ID, ch) ∈ chains) ∧
    List.Chain' (fun a b => b.offset < a.offset) cp.thread ∧
    cp.depth = cp.thread.length ∧
    cp.thread.head? = cp.Comments.getLast?

theorem ScanInv_init : ScanInv {} DB.empty := by
  refine ⟨[], rfl, rfl, by norm_num [DB.empty], rfl, by simp, by simp [CommentPage.mk], ?_, rfl, rfl⟩
  simp [CommentPage.mk]

theorem ScanInv_step {aID : Int} {cp : CommentPage} {db : DB} {row : CommentRow}
    {cp' : CommentPage} {db' : DB} (hinv : ScanInv cp db)
    (h : CommentPage.parseRow aID cp db row = some (cp', db')) : ScanInv cp' db' := by
  obtain ⟨chains, h1, h2, h3, h4, h5, h6, h7, h8, h9⟩ := hinv
  obtain ⟨c4, sc, hc4id, hc4off, hscid, hCom, hThr, hDep, hdbc, hdbn, hcase⟩ := parseRow_some h
  have hNodupFst : (chains.map Prod.fst).Nodup := by rw [h1]; exact idRange_nodup _
  have hlen : db'.comments.length = db.comments.length + 1 := by rw [hdbc]; simp
  have hgetLast : cp'.thread.head? = cp'.Comments.getLast? := by
    rw [hThr, hCom]
    simp
  rcases hcase with ⟨hpop, hthr⟩ | ⟨parent, rest, hpop, hthr⟩
  · -- the stack emptied: the new comment is a root with chain [id]
    refine ⟨chains ++ [(db.nextCommentId, [db.nextCommentId])], ?_, ?_, ?_, ?_, ?_, ?_, ?_, ?_, hgetLast⟩
    · rw [List.map_append, h1, hlen]
      show _ = idRange db.comments.length ++ [((db.comments.length : Nat) : Int) + 1]
      rw [h3]
      simp
    · rw [hdbc, List.map_append]
      have hl2 : (db.comments ++ [sc]).length = db.comments.length + 1 := by simp
      rw [hl2]
      show _ = idRange db.comments.length ++ [((db.comments.length : Nat) : Int) + 1]
      rw [h2]
      simp [hscid, h3]
    · rw [hdbn, h3, hlen]
      push_cast
      ring
    · rw [hthr, h4, blocksOf_append]
      show _ = _ ++ ([(⟨db.nextCommentId, db.nextCommentId, 0⟩ : ThreadEdge)] ++ [])
      simp [blocksOf, chainEdges]
    · intro p hp
      rcases List.mem_append.mp hp with hp' | hp'
      · obtain ⟨ha, hb, hc, hd⟩ := h5 p hp'
        refine ⟨ha, hb, ?_, ?_⟩
        · intro a haa
          have := hc a haa
          rw [hlen]
          push_cast
          omega
        · rcases hd with hd | hd
          · exact Or.inl hd
          · exact Or.inr (by rw [List.map_append]; exact List.mem_append.mpr (Or.inl hd))
      · simp only [List.mem_singleton] at hp'
        subst hp'
        refine ⟨rfl, by simp, ?_, Or.inl rfl⟩
        intro a haa
        simp only [List.mem_singleton] at haa
        subst haa
        rw [h3, hlen]
        push_cast
        constructor <;> omega
    · intro c hc
      rw [hThr] at hc
      rcases List.mem_cons.mp hc with rfl | hc'
      · exact ⟨[db.nextCommentId], by rw [hc4id]; exact List.mem_append.mpr (Or.inr (by simp))⟩
      · obtain ⟨ch, hch⟩ := h6 c (mem_of_mem_dropWhile hc')
        exact ⟨ch, List.mem_append.mpr (Or.inl hch)⟩
    · rw [hThr, hpop]
      simp
    · rw [hDep]
  · -- the new comment replies to the stack top
    obtain ⟨pch, hpch⟩ := h6 parent
      (mem_of_mem_dropWhile (by rw [hpop]; exact List.mem_cons_self parent rest))
    obtain ⟨hphead, hpchain, hpbounds, hptail⟩ := h5 (parent.ID, pch) hpch
    obtain ⟨pt, rfl⟩ : ∃ t, pch = parent.ID :: t := by
      cases pch with
      | nil => simp at hphead
      | cons a t =>
        simp only [List.head?_cons, Option.some.injEq] at hphead
        exact ⟨t, by rw [hphead]⟩
    have hpid : 1 ≤ parent.ID ∧ parent.ID ≤ (db.comments.length : Int) :=
      hpbounds parent.ID (List.mem_cons_self _ _)
    have hpidlt : parent.ID < db.nextCommentId := by rw [h3]; omega
    refine ⟨chains ++ [(db.nextCommentId, db.nextCommentId :: parent.ID :: pt)],
      ?_, ?_, ?_, ?_, ?_, ?_, ?_, ?_, hgetLast⟩
    · rw [List.map_append, h1, hlen]
      show _ = idRange db.comments.length ++ [((db.comments.length : Nat) : Int) + 1]
      rw [h3]
      simp
    · rw [hdbc, List.map_append]
      have hl2 : (db.comments ++ [sc]).length = db.comments.length + 1 := by simp
      rw [hl2]
      show _ = idRange db.comments.length ++ [((db.comments.length : Nat) : Int) + 1]
      rw [h2]
      simp [hscid, h3]
    · rw [hdbn, h3, hlen]
      push_cast
      ring
    · rw [hthr, h4, blocksOf_append]
      have hdec : decide (db.nextCommentId = parent.ID) = false := by
        simp only [decide_eq_false_iff_not]
        omega
      have hfilterSelf :
          ([(⟨db.nextCommentId, db.nextCommentId, 0⟩ : ThreadEdge)]).filter
            (fun e => e.descendant = parent.ID) = [] := by
        simp [List.filter_cons, hdec]
      rw [List.filter_append, hfilterSelf, List.append_nil,
        filter_blocksOf hNodupFst hpch, chainEdges_map_shift]
      show _ = _ ++ (chainEdges db.nextCommentId (db.nextCommentId :: parent.ID :: pt) 0 ++ [])
      simp [chainEdges]
    · intro p hp
      rcases List.mem_append.mp hp with hp' | hp'
      · obtain ⟨ha, hb, hc, hd⟩ := h5 p hp'
        refine ⟨ha, hb, ?_, ?_⟩
        · intro a haa
          have := hc a haa
          rw [hlen]
          push_cast
          omega
        · rcases hd with hd | hd
          · exact Or.inl hd
          · exact Or.inr (by rw [List.map_append]; exact List.mem_append.mpr (Or.inl hd))
      · simp only [List.mem_singleton] at hp'
        subst hp'
        refine ⟨rfl, ?_, ?_, ?_⟩
        · refine List.chain'_cons'.mpr ⟨?_, hpchain⟩
          intro y hy
          rw [Option.mem_def] at hy
          simp only [List.head?_cons, Option.some.injEq] at hy
          subst hy
          exact hpidlt
        · intro a haa
          rcases List.mem_cons.mp haa with rfl | haa'
          · rw [h3, hlen]
            push_cast
            constructor <;> omega
          · have := hpbounds a haa'
            rw [hlen]
            push_cast
            omega
        · refine Or.inr ?_
          rw [List.map_append]
          refine List.mem_append.mpr (Or.inl ?_)
          exact List.mem_map_of_mem Prod.snd hpch
    · intro c hc
      rw [hThr] at hc
      rcases List.mem_cons.mp hc with rfl | hc'
      · refine ⟨db.nextCommentId :: parent.ID :: pt, ?_⟩
        rw [hc4id]
        exact List.mem_append.mpr (Or.inr (by simp))
      · obtain ⟨ch, hch⟩ := h6 c (mem_of_mem_dropWhile hc')
        exact ⟨ch, List.mem_append.mpr (Or.inl hch)⟩
    · rw [hThr, hpop]
      refine List.chain'_cons'.mpr ⟨?_, ?_⟩
      · intro y hy
        rw [Option.mem_def] at hy
        simp only [List.head?_cons, Option.some.injEq] at hy
        subst hy
        have hfalse : (fun p => decide (c4.offset ≤ p.offset)) parent = false :=
          dropWhile_head_false (fun p => decide (c4.offset ≤ p.offset)) cp.thread
            (by rw [hpop]; rfl)
        simp only [decide_eq_true_eq] at hfalse
        simp only [decide_eq_false_iff_not, not_le] at hfalse
        exact hfalse
      · have := List.Chain'.suffix h7 (dropWhile_suffix_of (fun p => decide (c4.offset ≤ p.offset)) cp.thread)
        rw [hpop] at this
        exact this
    · rw [hDep]

theorem ScanInv_parseList {aID : Int} :
    ∀ {rows : List CommentRow} {cp : CommentPage} {db : DB} {cp' : CommentPage} {db' : DB},
      ScanInv cp db → CommentPage.parseList aID rows cp db = some (cp', db') →
      ScanInv cp' db' := by
  intro rows
  induction rows with
  | nil =>
    intro cp db cp' db' hinv h
    simp only [CommentPage.parseList, Option.some.injEq, Prod.mk.injEq] at h
    obtain ⟨h1, h2⟩ := h
    subst h1 h2
    exact hinv
  | cons r rs ih =>
    intro cp db cp' db' hinv h
    simp only [CommentPage.parseList] at h
    cases hr : CommentPage.parseRow aID cp db r with
    | none => rw [hr] at h; exact absurd h (by simp)
    | some v =>
      obtain ⟨cp1, db1⟩ := v
      rw [hr] at h
      exact ih (ScanInv_step hinv hr) h

theorem ScanInv_parse {aID : Int} {rows : List CommentRow} {cp : CommentPage} {db : DB}
    (h : CommentPage.parse aID rows = some (cp, db)) : ScanInv cp db :=
  ScanInv_parseList ScanInv_init h

theorem parseList_append {aID : Int} :
    ∀ {rows1 rows2 : List CommentRow} {cp : CommentPage} {db : DB},
      CommentPage.parseList aID (rows1 ++ rows2) cp db =
        (match CommentPage.parseList aID rows1 cp db with
          | none => none
          | some (cp1, db1) => CommentPage.parseList aID rows2 cp1 db1) := by
  intro rows1
  induction rows1 with
  | nil => intro rows2 cp db; rfl
  | cons r rs ih =>
    intro rows2 cp db
    simp only [List.cons_append, CommentPage.parseList]
    cases hr : CommentPage.parseRow aID cp db r with
    | none => rfl
    | some v => exact ih

theorem parseList_extends {aID : Int} :
    ∀ {rows : List CommentRow} {cp : CommentPage} {db : DB} {cp' : CommentPage} {db' : DB},
      CommentPage.parseList aID rows cp db = some (cp', db') →
      (∃ t, db'.comments = db.comments ++ t) ∧ (∃ t, db'.threads = db.threads ++ t) := by
  intro rows
  induction rows with
  | nil =>
    intro cp db cp' db' h
    simp only [CommentPage.parseList, Option.some.injEq, Prod.mk.injEq] at h
    obtain ⟨h1, h2⟩ := h
    subst h1 h2
    exact ⟨⟨[], by simp⟩, ⟨[], by simp⟩⟩
  | cons r rs ih =>
    intro cp db cp' db' h
    simp only [CommentPage.parseList] at h
    cases hr : CommentPage.parseRow aID cp db r with
    | none => rw [hr] at h; exact absurd h (by simp)
    | some v =>
      obtain ⟨cp1, db1⟩ := v
      rw [hr] at h
      obtain ⟨⟨t1, ht1⟩, ⟨t2, ht2⟩⟩ := ih h
      obtain ⟨c4, sc, _, _, _, _, _, _, hdbc, _, hcase⟩ := parseRow_some hr
      refine ⟨⟨sc :: t1, by rw [ht1, hdbc]; simp⟩, ?_⟩
      rcases hcase with ⟨_, hthr⟩ | ⟨parent, rest, _, hthr⟩
      · exact ⟨⟨db.nextCommentId, db.nextCommentId, 0⟩ :: t2, by rw [ht2, hthr]; simp⟩
      · refine ⟨(⟨db.nextCommentId, db.nextCommentId, 0⟩ ::
          ((db.threads ++ [(⟨db.nextCommentId, db.nextCommentId, 0⟩ : ThreadEdge)]).filter
              (fun e => e.descendant = parent.ID)).map
            (fun e => (⟨e.ancestor, db.nextCommentId, e.depth + 1⟩ : ThreadEdge))) ++ t2, ?_⟩
        rw [ht2, hthr]
        simp

/-- Structural abstraction of a stack entry: only its serial id and offset
    influence which edges the scan writes. -/
def absC (c : Comment) : Int × Int := (c.ID, c.offset)

theorem map_absC_dropWhile (off : Int) :
    ∀ (l₁ l₂ : List Comment), l₁.map absC = l₂.map absC →
      (l₁.dropWhile (fun p => decide (off ≤ p.offset))).map absC =
        (l₂.dropWhile (fun p => decide (off ≤ p.offset))).map absC := by
  intro l₁
  induction l₁ with
  | nil =>
    intro l₂ h
    cases l₂ with
    | nil => rfl
    | cons b u => simp at h
  | cons a t ih =>
    intro l₂ h
    cases l₂ with
    | nil => simp at h
    | cons b u =>
      simp only [List.map_cons, List.cons.injEq] at h
      obtain ⟨hab, htu⟩ := h
      have hoff : a.offset = b.offset := congrArg Prod.snd hab
      by_cases hc : off ≤ a.offset
      · rw [List.dropWhile_cons, List.dropWhile_cons, if_pos (by simpa using hc),
          if_pos (by rw [← hoff]; simpa using hc)]
        exact ih u htu
      · rw [List.dropWhile_cons, List.dropWhile_cons, if_neg (by simpa using hc),
          if_neg (by rw [← hoff]; simpa using hc)]
        simp only [List.map_cons, hab, htu]

theorem parseRow_abs {a₁ a₂ : Int} {cp₁ cp₂ : CommentPage} {db₁ db₂ : DB}
    {r₁ r₂ : CommentRow} {cp₁' cp₂' : CommentPage} {db₁' db₂' : DB}
    (hthread : cp₁.thread.map absC = cp₂.thread.map absC)
    (hthr : db₁.threads = db₂.threads) (hnext : db₁.nextCommentId = db₂.nextCommentId)
    (hoff : (go_atoi r₁.indWidth).1 = (go_atoi r₂.indWidth).1)
    (h₁ : CommentPage.parseRow a₁ cp₁ db₁ r₁ = some (cp₁', db₁'))
    (h₂ : CommentPage.parseRow a₂ cp₂ db₂ r₂ = some (cp₂', db₂')) :
    cp₁'.thread.map absC = cp₂'.thread.map absC ∧ db₁'.threads = db₂'.threads ∧
      db₁'.nextCommentId = db₂'.nextCommentId := by
  obtain ⟨c4, sc, hc4id, hc4off, _, _, hThr1, _, _, hdbn1, hcase1⟩ := parseRow_some h₁
  obtain ⟨d4, sd, hd4id, hd4off, _, _, hThr2, _, _, hdbn2, hcase2⟩ := parseRow_some h₂
  have habs : absC c4 = absC d4 := by
    simp only [absC, hc4id, hd4id, hc4off, hd4off, hnext, hoff]
  have hoffeq : c4.offset = d4.offset := congrArg Prod.snd habs
  have hpredeq : (fun p => decide (d4.offset ≤ p.offset)) =
      (fun p : Comment => decide (c4.offset ≤ p.offset)) := by rw [hoffeq]
  have hdrop : (cp₁.thread.dropWhile (fun p => decide (c4.offset ≤ p.offset))).map absC =
      (cp₂.thread.dropWhile (fun p => decide (c4.offset ≤ p.offset))).map absC :=
    map_absC_dropWhile c4.offset cp₁.thread cp₂.thread hthread
  rw [hpredeq] at hThr2 hcase2
  have hnexteq : db₁'.nextCommentId = db₂'.nextCommentId := by
    rw [hdbn1, hdbn2, hnext]
  refine ⟨?_, ?_, hnexteq⟩
  · rw [hThr1, hThr2]
    simp only [List.map_cons, habs, hdrop]
  · rcases hcase1 with ⟨hpop1, hthr1⟩ | ⟨parent1, rest1, hpop1, hthr1⟩ <;>
      rcases hcase2 with ⟨hpop2, hthr2⟩ | ⟨parent2, rest2, hpop2, hthr2⟩
    · rw [hthr1, hthr2, hthr, hnext]
    · rw [hpop1, hpop2] at hdrop
      simp at hdrop
    · rw [hpop1, hpop2] at hdrop
      simp at hdrop
    · rw [hpop1, hpop2] at hdrop
      simp only [List.map_cons, List.cons.injEq] at hdrop
      have hpid : parent1.ID = parent2.ID := congrArg Prod.fst hdrop.1
      rw [hthr1, hthr2, hthr, hnext, hpid]

theorem parseList_abs {a₁ a₂ : Int} :
    ∀ {rows₁ rows₂ : List CommentRow} {cp₁ cp₂ : CommentPage} {db₁ db₂ : DB}
      {cp₁' cp₂' : CommentPage} {db₁' db₂' : DB},
      rowOffsets rows₁ = rowOffsets rows₂ →
      cp₁.thread.map absC = cp₂.thread.map absC →
      db₁.threads = db₂.threads → db₁.nextCommentId = db₂.nextCommentId →
      CommentPage.parseList a₁ rows₁ cp₁ db₁ = some (cp₁', db₁') →
      CommentPage.parseList a₂ rows₂ cp₂ db₂ = some (cp₂', db₂') →
      db₁'.threads = db₂'.threads ∧ db₁'.nextCommentId = db₂'.nextCommentId := by
  intro rows₁
  induction rows₁ with
  | nil =>
    intro rows₂ cp₁ cp₂ db₁ db₂ cp₁' cp₂' db₁' db₂' ho hth htr hnx h₁ h₂
    cases rows₂ with
    | nil =>
      simp only [CommentPage.parseList, Option.some.injEq, Prod.mk.injEq] at h₁ h₂
      obtain ⟨ha, hb⟩ := h₁
      obtain ⟨hc, hd⟩ := h₂
      subst ha hb hc hd
      exact ⟨htr, hnx⟩
    | cons r u => simp [rowOffsets] at ho
  | cons r₁ rs₁ ih =>
    intro rows₂ cp₁ cp₂ db₁ db₂ cp₁' cp₂' db₁' db₂' ho hth htr hnx h₁ h₂
    cases rows₂ with
    | nil => simp [rowOffsets] at ho
    | cons r₂ rs₂ =>
      simp only [rowOffsets, List.map_cons, List.cons.injEq] at ho
      simp only [CommentPage.parseList] at h₁ h₂
      cases hr₁ : CommentPage.parseRow a₁ cp₁ db₁ r₁ with
      | none => rw [hr₁] at h₁; exact absurd h₁ (by simp)
      | some v₁ =>
        cases hr₂ : CommentPage.parseRow a₂ cp₂ db₂ r₂ with
        | none => rw [hr₂] at h₂; exact absurd h₂ (by simp)
        | some v₂ =>
          obtain ⟨cpa, dba⟩ := v₁
          obtain ⟨cpb, dbb⟩ := v₂
          rw [hr₁] at h₁
          rw [hr₂] at h₂
          obtain ⟨hthx, htrx, hnxx⟩ := parseRow_abs hth htr hnx ho.1 hr₁ hr₂
          exact ih ho.2 hthx htrx hnxx h₁ h₂

theorem parse_abs {a₁ a₂ : Int} {rows₁ rows₂ : List CommentRow}
    {st₁ st₂ : CommentPage × DB}
    (ho : rowOffsets rows₁ = rowOffsets rows₂)
    (h₁ : CommentPage.parse a₁ rows₁ = some st₁)
    (h₂ : CommentPage.parse a₂ rows₂ = some st₂) :
    st₁.2.threads = st₂.2.threads := by
  obtain ⟨cp₁, db₁⟩ := st₁
  obtain ⟨cp₂, db₂⟩ := st₂
  exact (parseList_abs ho rfl rfl rfl h₁ h₂).1

theorem selfEdge_count {cp : CommentPage} {db : DB} (h : ScanInv cp db)
    {sc : StoredComment} (hm : sc ∈ db.comments) :
    db.threads.count ⟨sc.id, sc.id, 0⟩ = 1 := by
  obtain ⟨chains, h1, h2, h3, h4, h5, _, _, _, _⟩ := h
  have hNodupFst : (chains.map Prod.fst).Nodup := by rw [h1]; exact idRange_nodup _
  have hid : sc.id ∈ idRange db.comments.length := by
    rw [← h2]
    exact List.mem_map_of_mem StoredComment.id hm
  rw [← h1] at hid
  obtain ⟨p, hp, hp1⟩ := List.mem_map.mp hid
  obtain ⟨i, ch⟩ := p
  simp only at hp1
  subst hp1
  obtain ⟨hhead, _, _, _⟩ := h5 _ hp
  simp only at hhead
  rw [h4, count_blocksOf hNodupFst hp rfl]
  have hch0 : ch[0]? = some sc.id := by
    cases ch with
    | nil => simp at hhead
    | cons a t =>
      simp only [List.head?_cons, Option.some.injEq] at hhead
      simp [hhead]
  have hcount := count_chainEdges_get (i := sc.id) (d := 0) hch0
  simpa using hcount

theorem closure_step {cp : CommentPage} {db : DB} (h : ScanInv cp db)
    {e : ThreadEdge} (he : e ∈ db.threads) (hk : 0 < e.depth) :
    ∃ p : Int, db.threads.count ⟨p, e.descendant, 1⟩ = 1 ∧
      db.threads.count ⟨e.ancestor, p, e.depth - 1⟩ = 1 := by
  obtain ⟨chains, h1, h2, h3, h4, h5, _, _, _, _⟩ := h
  have hNodupFst : (chains.map Prod.fst).Nodup := by rw [h1]; exact idRange_nodup _
  rw [h4] at he ⊢
  obtain ⟨q, hq, hqe⟩ := mem_blocksOf.mp he
  obtain ⟨j, hj, hdesc, hdepth⟩ := mem_chainEdges.mp hqe
  obtain ⟨i, ch⟩ := q
  simp only at hj hdesc hdepth
  obtain ⟨hhead, hchain, hbounds, htail⟩ := h5 _ hq
  simp only at hhead hchain hbounds htail
  have hj0 : j ≠ 0 := by
    intro h0
    subst h0
    simp only [Nat.cast_zero, add_zero] at hdepth
    omega
  obtain ⟨j', rfl⟩ : ∃ j', j = j' + 1 := ⟨j - 1, by omega⟩
  cases ch with
  | nil => simp at hhead
  | cons a t =>
    simp only [List.head?_cons, Option.some.injEq] at hhead
    subst hhead
    simp only [List.getElem?_cons_succ] at hj
    cases t with
    | nil => simp at hj
    | cons p0 t2 =>
      refine ⟨p0, ?_, ?_⟩
      · have hch1 : (a :: p0 :: t2)[1]? = some p0 := by simp
        have hcount := count_chainEdges_get (i := a) (d := 0) hch1
        have hed : (⟨p0, e.descendant, 1⟩ : ThreadEdge) = ⟨p0, a, 0 + ((1 : Nat) : Int)⟩ := by
          rw [hdesc]
          congr 1
        rw [hed, count_blocksOf hNodupFst hq rfl]
        exact hcount
      · have htmem : (p0 :: t2) ∈ chains.map Prod.snd := by
          rcases htail with hx | hx
          · simp at hx
          · simpa using hx
        obtain ⟨q2, hq2, hq2eq⟩ := List.mem_map.mp htmem
        obtain ⟨i2, ch2⟩ := q2
        simp only at hq2eq
        subst hq2eq
        obtain ⟨hhead2, _, _, _⟩ := h5 _ hq2
        simp only [List.head?_cons, Option.some.injEq] at hhead2
        subst hhead2
        have hcount := count_chainEdges_get (i := p0) (d := 0) (j := j') hj
        have hed : (⟨e.ancestor, p0, e.depth - 1⟩ : ThreadEdge) =
            ⟨e.ancestor, p0, 0 + (j' : Int)⟩ := by
          congr 1
          push_cast at hdepth
          omega
        rw [hed, count_blocksOf hNodupFst hq2 rfl]
        exact hcount

theorem firstComment_root {cp : CommentPage} {db : DB} (h : ScanInv cp db)
    (hne : db.comments ≠ []) :
    db.threads.filter (fun e => e.descendant = 1) = [⟨1, 1, 0⟩] := by
  obtain ⟨chains, h1, h2, h3, h4, h5, _, _, _, _⟩ := h
  have hNodupFst : (chains.map Prod.fst).Nodup := by rw [h1]; exact idRange_nodup _
  have hlen0 : db.comments.length ≠ 0 := fun hc => hne (List.length_eq_zero.mp hc)
  have h1mem : (1 : Int) ∈ chains.map Prod.fst := by
    rw [h1]
    refine mem_idRange.mpr ⟨le_refl 1, ?_⟩
    have : 1 ≤ db.comments.length := by omega
    exact_mod_cast this
  obtain ⟨p, hp, hp1⟩ := List.mem_map.mp h1mem
  obtain ⟨i, ch⟩ := p
  simp only at hp1
  subst hp1
  obtain ⟨hhead, hchain, hbounds, _⟩ := h5 _ hp
  simp only at hhead hchain hbounds
  cases ch with
  | nil => simp at hhead
  | cons a t =>
    simp only [List.head?_cons, Option.some.injEq] at hhead
    subst hhead
    have ht : t = [] := by
      cases t with
      | nil => rfl
      | cons b u =>
        have hb := hbounds b (by simp)
        have hlt : b < 1 := (List.chain'_cons.mp hchain).1
        omega
    subst ht
    rw [h4, filter_blocksOf hNodupFst hp]
    rfl

theorem findDigitRun_eq (l : List Char) :
    findDigitRun l = (l.dropWhile (fun ch => !ch.isDigit)).takeWhile Char.isDigit := by
  induction l with
  | nil => rfl
  | cons c rest ih =>
    by_cases hc : c.isDigit
    · simp [findDigitRun, hc, List.dropWhile_cons, List.takeWhile_cons]
    · simp only [findDigitRun, List.dropWhile_cons]
      rw [if_neg (by simp [hc]), if_pos (by simp [hc])]
      exact ih

theorem go_atoi_digits {l : List Char} (h1 : l ≠ []) (h2 : l.all Char.isDigit = true) :
    go_atoi_list l =
      (if digitsVal l ≤ intMax then (digitsVal l, true) else (intMax, false)) := by
  cases l with
  | nil => exact absurd rfl h1
  | cons c cs =>
    have hcd : c.isDigit = true := List.all_eq_true.mp h2 c (by simp)
    have hcm : ¬ (c = '-') := fun h => by subst h; exact absurd hcd (by decide)
    have hcp : ¬ (c = '+') := fun h => by subst h; exact absurd hcd (by decide)
    simp only [go_atoi_list, if_neg hcm, if_neg hcp, atoiDigits]
    rw [if_neg (by simp), if_neg (by simp [h2])]

/-- A well-formed comment row with the given indent width and site id. -/
def wRow (w : String) (idn : String) : CommentRow :=
  ⟨w, [⟨"user", "user?id=u"⟩, ⟨"1 minute ago", "item?id=" ++ idn⟩], "", "body"⟩

/-- A malformed comment row: three links in the head region. -/
def wRow3 (w : String) : CommentRow :=
  ⟨w, [⟨"a", "x"⟩, ⟨"b", "y"⟩, ⟨"c", "z"⟩], "", "body"⟩

/-- Default scan state used to extract the value of a completed parse. -/
def dfltSt : CommentPage × DB := ({}, DB.empty)

/-- Rows with offsets 0, 2, 1, 2 (the stack-pop test vector). -/
def c1rows : List CommentRow := [wRow "0" "101", wRow "2" "102", wRow "1" "103", wRow "2" "104"]

/-- Rows with strictly increasing offsets 0, 1, 2. -/
def chainRows : List CommentRow := [wRow "0" "101", wRow "1" "102", wRow "2" "103"]

/-- Rows with constant offset 0. -/
def flatRows : List CommentRow := [wRow "0" "101", wRow "0" "102", wRow "0" "103"]

/-- Two rows, a root and a reply. -/
def c6rows : List CommentRow := [wRow "0" "101", wRow "1" "102"]

/-- The stack-pop vector with the 2nd row's head region malformed (3 links). -/
def c5rows : List CommentRow := [wRow "0" "101", wRow3 "2", wRow "1" "103", wRow "2" "104"]

/-- A single well-formed row whose permalink carries site id 123. -/
def c8row : CommentRow := wRow "0" "123"

/-- C9 counterexample: on the text "a1" (no LEADING digit run, a digit later),
    the source's extraction returns 1 while the claim's leading-run reading
    returns 0 — number_re.FindString finds the leftmost run anywhere, not a
    prefix. -/
theorem c9_counterexample :
    parseIntFromSelectionText "a1" = 1 ∧ leadingDigitRunValue "a1" = 0 ∧
      ¬ (parseIntFromSelectionText "a1" = leadingDigitRunValue "a1") := by
  refine ⟨by decide, by decide, by decide⟩

/-- C9 (amended): for every text, the rank/score/comment-count extraction
    returns the integer denoted by the LEFTMOST run of digits anywhere in the
    text, and 0 when the text has no digit or the run overflows int64. -/
theorem c9_first_run (s : String) :
    parseIntFromSelectionText s = firstDigitRunValue s := by
  unfold parseIntFromSelectionText firstDigitRunValue number_re_find go_atoi
  rw [show (String.mk (findDigitRun s.toList)).toList = findDigitRun s.toList from rfl]
  rw [findDigitRun_eq]
  cases hr : (s.toList.dropWhile (fun ch => !ch.isDigit)).takeWhile Char.isDigit with
  | nil => simp [go_atoi_list]
  | cons c cs =>
    have hcd : c.isDigit = true :=
      List.mem_takeWhile_imp (by rw [hr]; exact List.mem_cons_self c cs)
    have hall : (c :: cs).all Char.isDigit = true := by
      rw [← hr]
      refine List.all_eq_true.mpr ?_
      intro x hx
      exact List.mem_takeWhile_imp hx
    rw [go_atoi_digits (by simp) hall]
    by_cases hv : digitsVal (c :: cs) ≤ intMax
    · simp [hv]
    · simp [hv]

/-- C1: for every article whose comment rows carry offsets [0, 2, 1, 2] and
    whose scan completes, comment2 is a child of comment1, comment3 is a child
    of comment1 (the pop over equal-or-deeper offsets passes comment2),
    comment4 is a child of comment3, and the ancestor set of comment4 is
    exactly comment4, comment3, comment1 (at depths 0, 1, 2).  Comments are
    numbered by their store serials, assigned in row order. -/
theorem c1_stack_pop (aID : Int) (rows : List CommentRow) (st : CommentPage × DB)
    (ho : rowOffsets rows = [0, 2, 1, 2])
    (hp : CommentPage.parse aID rows = some st) :
    st.2.threads.count ⟨1, 2, 1⟩ = 1 ∧ st.2.threads.count ⟨1, 3, 1⟩ = 1 ∧
      st.2.threads.count ⟨3, 4, 1⟩ = 1 ∧
      (st.2.threads.filter (fun e => e.descendant = 4)).map ThreadEdge.ancestor = [4, 3, 1] := by
  have hc : CommentPage.parse 1 c1rows = some ((CommentPage.parse 1 c1rows).getD dfltSt) := rfl
  have hoc : rowOffsets c1rows = [0, 2, 1, 2] := by decide
  have heq := parse_abs (ho.trans hoc.symm) hp hc
  rw [heq]
  refine ⟨by decide, by decide, by decide, by decide⟩

/-- Witness for c1_stack_pop at the concrete rows c1rows. -/
theorem c1_stack_pop_witness :
    ((CommentPage.parse 1 c1rows).getD dfltSt).2.threads.count ⟨1, 2, 1⟩ = 1 ∧
      ((CommentPage.parse 1 c1rows).getD dfltSt).2.threads.count ⟨1, 3, 1⟩ = 1 ∧
      ((CommentPage.parse 1 c1rows).getD dfltSt).2.threads.count ⟨3, 4, 1⟩ = 1 ∧
      (((CommentPage.parse 1 c1rows).getD dfltSt).2.threads.filter
          (fun e => e.descendant = 4)).map ThreadEdge.ancestor = [4, 3, 1] :=
  c1_stack_pop 1 c1rows ((CommentPage.parse 1 c1rows).getD dfltSt) (by decide) rfl

/-- C4: completed scans at offsets [0, 1, 2] yield exactly the single chain
    whose edges place the three comments at depths 0, 1, 2 below the first
    comment; offsets [0, 0, 0] yield three independent roots with only the
    three self-edges; and the first comment of any nonempty article is always
    a root: the only edge with descendant 1 is its self-edge (it may appear
    later as an ANCESTOR of replies, which is how the spec's "no edges beyond
    its self-edge" must be read). -/
theorem c4_depth_monotonicity :
    (∀ (aID : Int) (rows : List CommentRow) (st : CommentPage × DB),
        rowOffsets rows = [0, 1, 2] → CommentPage.parse aID rows = some st →
        st.2.threads = [⟨1, 1, 0⟩, ⟨2, 2, 0⟩, ⟨1, 2, 1⟩, ⟨3, 3, 0⟩, ⟨2, 3, 1⟩, ⟨1, 3, 2⟩]) ∧
    (∀ (aID : Int) (rows : List CommentRow) (st : CommentPage × DB),
        rowOffsets rows = [0, 0, 0] → CommentPage.parse aID rows = some st →
        st.2.threads = [⟨1, 1, 0⟩, ⟨2, 2, 0⟩, ⟨3, 3, 0⟩]) ∧
    (∀ (aID : Int) (rows : List CommentRow) (st : CommentPage × DB),
        rows ≠ [] → CommentPage.parse aID rows = some st →
        st.2.threads.filter (fun e => e.descendant = 1) = [⟨1, 1, 0⟩]) := by
  refine ⟨?_, ?_, ?_⟩
  · intro aID rows st ho hp
    have hc : CommentPage.parse 1 chainRows = some ((CommentPage.parse 1 chainRows).getD dfltSt) := rfl
    have heq := parse_abs (ho.trans (by decide : rowOffsets chainRows = [0, 1, 2]).symm) hp hc
    rw [heq]
    decide
  · intro aID rows st ho hp
    have hc : CommentPage.parse 1 flatRows = some ((CommentPage.parse 1 flatRows).getD dfltSt) := rfl
    have heq := parse_abs (ho.trans (by decide : rowOffsets flatRows = [0, 0, 0]).symm) hp hc
    rw [heq]
    decide
  · intro aID rows st hne hp
    obtain ⟨cp, db⟩ := st
    have hinv := ScanInv_parse hp
    refine firstComment_root hinv ?_
    cases rows with
    | nil => exact absurd rfl hne
    | cons r rs =>
      unfold CommentPage.parse at hp
      simp only [CommentPage.parseList] at hp
      cases hr : CommentPage.parseRow aID {} DB.empty r with
      | none => rw [hr] at hp; exact absurd hp (by simp)
      | some v =>
        obtain ⟨cp1, db1⟩ := v
        rw [hr] at hp
        obtain ⟨c4, sc, _, _, _, _, _, _, hdbc, _, _⟩ := parseRow_some hr
        obtain ⟨⟨t1, ht1⟩, _⟩ := parseList_extends hp
        intro hcontra
        rw [ht1, hdbc] at hcontra
        simp [DB.empty] at hcontra

/-- Witness for c4_depth_monotonicity at chainRows, flatRows and c1rows. -/
theorem c4_depth_monotonicity_witness :
    ((CommentPage.parse 1 chainRows).getD dfltSt).2.threads =
        [⟨1, 1, 0⟩, ⟨2, 2, 0⟩, ⟨1, 2, 1⟩, ⟨3, 3, 0⟩, ⟨2, 3, 1⟩, ⟨1, 3, 2⟩] ∧
      ((CommentPage.parse 1 flatRows).getD dfltSt).2.threads =
        [⟨1, 1, 0⟩, ⟨2, 2, 0⟩, ⟨3, 3, 0⟩] ∧
      ((CommentPage.parse 1 c1rows).getD dfltSt).2.threads.filter
          (fun e => e.descendant = 1) = [⟨1, 1, 0⟩] :=
  ⟨c4_depth_monotonicity.1 1 chainRows ((CommentPage.parse 1 chainRows).getD dfltSt)
      (by decide) rfl,
    c4_depth_monotonicity.2.1 1 flatRows ((CommentPage.parse 1 flatRows).getD dfltSt)
      (by decide) rfl,
    c4_depth_monotonicity.2.2 1 c1rows ((CommentPage.parse 1 c1rows).getD dfltSt)
      (by decide) rfl⟩

/-- C10: for every completed scan (and hence, rows being arbitrary, after each
    processed comment row), the thread stack is a path whose offsets strictly
    increase from the bottom to the top (the stack is kept top-first here, so
    offsets strictly decrease along the list), the most recently retained
    comment is the top, and cp.depth equals the stack's length. -/
theorem c10_stack_invariant (aID : Int) (rows : List CommentRow)
    (st : CommentPage × DB) (hp : CommentPage.parse aID rows = some st) :
    List.Chain' (fun a b => b.offset < a.offset) st.1.thread ∧
      st.1.depth = st.1.thread.length ∧
      st.1.thread.head? = st.1.Comments.getLast? := by
  obtain ⟨cp, db⟩ := st
  obtain ⟨chains, _, _, _, _, _, _, h7, h8, h9⟩ := ScanInv_parse hp
  exact ⟨h7, h8, h9⟩

/-- Witness for c10_stack_invariant at the concrete rows c1rows. -/
theorem c10_stack_invariant_witness :
    List.Chain' (fun a b => b.offset < a.offset)
        ((CommentPage.parse 1 c1rows).getD dfltSt).1.thread ∧
      ((CommentPage.parse 1 c1rows).getD dfltSt).1.depth =
        ((CommentPage.parse 1 c1rows).getD dfltSt).1.thread.length ∧
      ((CommentPage.parse 1 c1rows).getD dfltSt).1.thread.head? =
        ((CommentPage.parse 1 c1rows).getD dfltSt).1.Comments.getLast? :=
  c10_stack_invariant 1 c1rows ((CommentPage.parse 1 c1rows).getD dfltSt) rfl

/-- C2: in every state reached by a completed scan, every ThreadEdge (a, d, k)
    with k > 0 determines a unique parent p of d — the stack top when d was
    inserted, recorded by its unique depth-1 edge (p, d, 1) — and exactly one
    edge (a, p, k-1) exists: the ancestor set of a reply is its parent's
    ancestor set, shifted one depth deeper, plus the parent itself. -/
theorem c2_closure_completeness (aID : Int) (rows : List CommentRow)
    (st : CommentPage × DB) (hp : CommentPage.parse aID rows = some st)
    (e : ThreadEdge) (he : e ∈ st.2.threads) (hk : 0 < e.depth) :
    ∃ p : Int, st.2.threads.count ⟨p, e.descendant, 1⟩ = 1 ∧
      st.2.threads.count ⟨e.ancestor, p, e.depth - 1⟩ = 1 := by
  obtain ⟨cp, db⟩ := st
  exact closure_step (ScanInv_parse hp) he hk

/-- Witness for c2_closure_completeness at the edge (1, 2, 1) of c6rows. -/
theorem c2_closure_completeness_witness :
    ∃ p : Int,
      ((CommentPage.parse 7 c6rows).getD dfltSt).2.threads.count
          ⟨p, (⟨1, 2, 1⟩ : ThreadEdge).descendant, 1⟩ = 1 ∧
        ((CommentPage.parse 7 c6rows).getD dfltSt).2.threads.count
          ⟨(⟨1, 2, 1⟩ : ThreadEdge).ancestor, p, (⟨1, 2, 1⟩ : ThreadEdge).depth - 1⟩ = 1 :=
  c2_closure_completeness 7 c6rows ((CommentPage.parse 7 c6rows).getD dfltSt) rfl
    ⟨1, 2, 1⟩ (by decide) (by decide)

/-- C3: in every state reached by a completed scan, every persisted comment
    has exactly one self-edge (its store id at depth 0), and scanning further
    rows only ever APPENDS to the threads relation — no edge is deleted or
    mutated. -/
theorem c3_self_edge_totality (aID : Int) (rows extra : List CommentRow)
    (st st2 : CommentPage × DB)
    (hp : CommentPage.parse aID rows = some st)
    (hq : CommentPage.parse aID (rows ++ extra) = some st2) :
    (∀ sc ∈ st.2.comments, st.2.threads.count ⟨sc.id, sc.id, 0⟩ = 1) ∧
      (∃ t, st2.2.threads = st.2.threads ++ t) := by
  obtain ⟨cp, db⟩ := st
  obtain ⟨cp2, db2⟩ := st2
  constructor
  · intro sc hm
    exact selfEdge_count (ScanInv_parse hp) hm
  · unfold CommentPage.parse at hp hq
    rw [parseList_append, hp] at hq
    exact (parseList_extends hq).2

/-- Witness for c3_self_edge_totality: c6rows extended by one more row. -/
theorem c3_self_edge_totality_witness :
    (∀ sc ∈ ((CommentPage.parse 7 c6rows).getD dfltSt).2.comments,
        ((CommentPage.parse 7 c6rows).getD dfltSt).2.threads.count ⟨sc.id, sc.id, 0⟩ = 1) ∧
      (∃ t, ((CommentPage.parse 7 (c6rows ++ [wRow "0" "103"])).getD dfltSt).2.threads =
        ((CommentPage.parse 7 c6rows).getD dfltSt).2.threads ++ t) :=
  c3_self_edge_totality 7 c6rows [wRow "0" "103"]
    ((CommentPage.parse 7 c6rows).getD dfltSt)
    ((CommentPage.parse 7 (c6rows ++ [wRow "0" "103"])).getD dfltSt) rfl rfl

/-- C5 (code bug): on the stack-pop vector whose 2nd row has a malformed head
    (3 links), the source DISCARDS parseCommentHead's error: comment 2 is
    stored anyway (with the zero-valued Username the failed parse left), it
    receives the self-edge (2,2,0) and the reply edge (1,2,1), and after two
    rows it sits on top of the thread stack — the claim requires it excluded
    from the stack and from all ThreadEdges. -/
theorem c5_malformed_row :
    ∃ st, CommentPage.parse 7 c5rows = some st ∧
      st.2.threads.count ⟨2, 2, 0⟩ = 1 ∧
      (⟨1, 2, 1⟩ : ThreadEdge) ∈ st.2.threads ∧
      st.2.comments.map StoredComment.username = ["user", "", "user", "user"] ∧
      ((CommentPage.parse 7 (c5rows.take 2)).getD dfltSt).1.thread.map Comment.ID = [2, 1] := by
  exact ⟨(CommentPage.parse 7 c5rows).getD dfltSt, rfl, by decide, by decide, by decide, by decide⟩

/-- C8 (code bug): for a well-formed row whose permalink carries site id 123,
    parseCommentHead parses 123 — but assigns it to the ID field, which
    Comment.store then OVERWRITES with the serial; the CommentID field is
    never assigned, so the persisted comments row carries comment_id = 0, not
    the site id the claim requires. -/
theorem c8_comment_id_bug :
    (((Comment.parseIndent { ArticleID := 7 } c8row).parseCommentHead c8row.headLinks).1).ID = 123 ∧
      ((Comment.parseIndent { ArticleID := 7 } c8row).parseCommentHead c8row.headLinks).2 = HeadRes.ok ∧
      (∃ st, CommentPage.parse 7 [c8row] = some st ∧
        st.2.comments.map StoredComment.comment_id = [0] ∧
        st.2.comments.map StoredComment.id = [1] ∧
        st.1.Comments.map Comment.ID = [1]) := by
  exact ⟨by decide, by decide,
    ⟨(CommentPage.parse 7 [c8row]).getD dfltSt, rfl, by decide, by decide, by decide⟩⟩

/-- C6 counterexample: when the store insert of the second comment fails
    (call index 2 of the scan over c6rows), the source's log.Fatal terminates
    the process — the run ends .fatal, refuting that the scheduler loops keep
    running; the same scan with no failing insert completes. -/
theorem c6_store_failure_counterexample :
    (CommentPage.parseF 7 2 c6rows).isFatal = true ∧
      (CommentPage.parse 7 c6rows).isSome = true := by
  exact ⟨by decide, by decide⟩

/-- C6 (amended): a scan that completes never reached its failing insert —
    equivalently, once an insert fails, log.Fatal ends the scan and the
    process, so the run does not continue past the designated call. -/
theorem c6_store_failure_amended (aID : Int) (failAt : Nat) :
    ∀ (rows : List CommentRow) (cp : CommentPage) (db : DB) (calls : Nat)
      (cp' : CommentPage) (db' : DB) (calls' : Nat),
      CommentPage.parseListF aID failAt rows cp db calls = RunOut.done cp' db' calls' →
      calls' ≤ failAt ∨ failAt < calls := by
  intro rows
  induction rows with
  | nil =>
    intro cp db calls cp' db' calls' h
    simp only [CommentPage.parseListF, RunOut.done.injEq] at h
    omega
  | cons r rs ih =>
    intro cp db calls cp' db' calls' h
    simp only [CommentPage.parseListF] at h
    split at h
    · exact absurd h (by simp)
    · split at h
      · exact absurd h (by simp)
      · split at h
        · exact absurd h (by simp)
        · split at h
          · rcases ih _ _ _ _ _ _ h with h1 | h1
            · exact Or.inl h1
            · right
              omega
          · split at h
            · exact absurd h (by simp)
            · rcases ih _ _ _ _ _ _ h with h1 | h1
              · exact Or.inl h1
              · right
                omega

/-- Witness for c6_store_failure_amended: the full c6rows scan performs 5
    inserts and completes when the failing call is far beyond them. -/
theorem c6_store_failure_amended_witness : (5 : Nat) ≤ 99 ∨ (99 : Nat) < 0 :=
  c6_store_failure_amended 7 99 c6rows {} DB.empty 0
    ((CommentPage.parse 7 c6rows).getD dfltSt).1
    ((CommentPage.parse 7 c6rows).getD dfltSt).2 5 (by decide)

theorem frontRow_spacer (snap : Int) (st : FPState) (row : PageRow) (h : row.cls = "spacer") :
    FrontPage.parseRow snap st row =
      { Articles := st.Articles, stored := st.stored ++ [{ st.cur with ID := st.nextArticleId }],
        cur := { SnapshotID := snap }, nextArticleId := st.nextArticleId + 1 } := by
  unfold FrontPage.parseRow
  rw [h, if_pos rfl]

theorem frontRow_title (snap : Int) (st : FPState) (row : PageRow) (h : row.cls = "athing") :
    FrontPage.parseRow snap st row = { st with cur := st.cur.parseTitleRow row } := by
  unfold FrontPage.parseRow
  rw [h, if_neg (by decide), if_pos rfl]

theorem frontRow_subtext (snap : Int) (st : FPState) (row : PageRow) (h : row.cls = "") :
    FrontPage.parseRow snap st row =
      (if (st.cur.parseSubtextRow row.subtext).2 then
        { st with cur := (st.cur.parseSubtextRow row.subtext).1,
                  Articles := st.Articles ++ [(st.cur.parseSubtextRow row.subtext).1] }
      else { st with cur := (st.cur.parseSubtextRow row.subtext).1 }) := by
  unfold FrontPage.parseRow
  rw [h, if_neg (by decide), if_neg (by decide), if_pos rfl]

/-- Front-page rows: a title row, an unclassed row with NO td.subtext match,
    and a spacer. -/
def c7rows : List PageRow :=
  [⟨"athing", "1.", "http://x", "T", none⟩, ⟨"", "", "", "", none⟩, ⟨"spacer", "", "", "", none⟩]

/-- C7 counterexample: the article whose subtext row has no matching elements
    is not appended to the snapshot's sequence — but it IS persisted: the
    spacer row stores the current accumulator unconditionally, so the claim's
    "not persisted to the store" is false on the code. -/
theorem c7_incomplete_article_counterexample :
    (FrontPage.parse 3 c7rows).Articles = [] ∧
      (FrontPage.parse 3 c7rows).stored.map Article.Title = ["T"] ∧
      (FrontPage.parse 3 c7rows).stored.length = 1 := by
  exact ⟨by decide, by decide, by decide⟩

/-- C7 (amended): an article whose subtext row has no matching elements is not
    appended to the snapshot's article sequence, but it is still persisted
    when the following spacer row arrives; complete articles are both
    appended, in encounter order, and persisted at their spacer. -/
theorem c7_incomplete_article_amended :
    (∀ (snap : Int) (t e s : PageRow),
        t.cls = "athing" → e.cls = "" → e.subtext = none → s.cls = "spacer" →
        (FrontPage.parse snap [t, e, s]).Articles = [] ∧
          (FrontPage.parse snap [t, e, s]).stored =
            [{ Article.parseTitleRow { SnapshotID := snap } t with ID := 1 }]) ∧
    (∀ (snap : Int) (t₁ e₁ s₁ t₂ e₂ s₂ : PageRow) (c₁ c₂ : SubtextCell),
        t₁.cls = "athing" → e₁.cls = "" → e₁.subtext = some c₁ → s₁.cls = "spacer" →
        t₂.cls = "athing" → e₂.cls = "" → e₂.subtext = some c₂ → s₂.cls = "spacer" →
        (FrontPage.parse snap [t₁, e₁, s₁, t₂, e₂, s₂]).Articles =
          [(Article.parseSubtextRow (Article.parseTitleRow { SnapshotID := snap } t₁)
              (some c₁)).1,
            (Article.parseSubtextRow (Article.parseTitleRow { SnapshotID := snap } t₂)
              (some c₂)).1] ∧
          (FrontPage.parse snap [t₁, e₁, s₁, t₂, e₂, s₂]).stored =
            [{ (Article.parseSubtextRow (Article.parseTitleRow { SnapshotID := snap } t₁)
                  (some c₁)).1 with ID := 1 },
              { (Article.parseSubtextRow (Article.parseTitleRow { SnapshotID := snap } t₂)
                  (some c₂)).1 with ID := 2 }]) := by
  constructor
  · intro snap t e s ht he hsub hs
    unfold FrontPage.parse
    simp only [List.foldl]
    rw [frontRow_title snap _ t ht, frontRow_subtext snap _ e he, hsub]
    simp only [Article.parseSubtextRow]
    rw [if_neg (by simp)]
    rw [frontRow_spacer snap _ s hs]
    exact ⟨rfl, rfl⟩
  · intro snap t₁ e₁ s₁ t₂ e₂ s₂ c₁ c₂ ht₁ he₁ hsub₁ hs₁ ht₂ he₂ hsub₂ hs₂
    unfold FrontPage.parse
    simp only [List.foldl]
    rw [frontRow_title snap _ t₁ ht₁, frontRow_subtext snap _ e₁ he₁, hsub₁]
    rw [if_pos (by rfl)]
    rw [frontRow_spacer snap _ s₁ hs₁]
    rw [frontRow_title snap _ t₂ ht₂, frontRow_subtext snap _ e₂ he₂, hsub₂]
    rw [if_pos (by rfl)]
    rw [frontRow_spacer snap _ s₂ hs₂]
    exact ⟨rfl, rfl⟩

/-- Witness for c7_incomplete_article_amended at the concrete rows of c7rows. -/
theorem c7_incomplete_article_amended_witness :
    (FrontPage.parse 3 [⟨"athing", "1.", "http://x", "T", none⟩, ⟨"", "", "", "", none⟩,
        ⟨"spacer", "", "", "", none⟩]).Articles = [] ∧
      (FrontPage.parse 3 [⟨"athing", "1.", "http://x", "T", none⟩, ⟨"", "", "", "", none⟩,
          ⟨"spacer", "", "", "", none⟩]).stored =
        [{ Article.parseTitleRow { SnapshotID := 3 }
            ⟨"athing", "1.", "http://x", "T", none⟩ with ID := 1 }] :=
  c7_incomplete_article_amended.1 3 ⟨"athing", "1.", "http://x", "T", none⟩
    ⟨"", "", "", "", none⟩ ⟨"spacer", "", "", "", none⟩ rfl rfl rfl rfl

/-- Witness for c9_first_run at a concrete text. -/
theorem c9_first_run_witness :
    parseIntFromSelectionText "x42y7" = firstDigitRunValue "x42y7" :=
  c9_first_run "x42y7"
